import Mathlib

/-!
# Verification of the PDF extraction core (`src/pdfService.ts`)

Shallow embedding of the text normalizer (`cleanText`), the quality
classifier (`containsRealWords` / `isTextQualityGood`), the chunker
(`chunkText`) and the extraction orchestrator (`extractPdfText` /
`extractPdfWithOcr`) of the repository, together with proofs of the
specification claims about them.

Strings are modelled as `List Char` (Unicode scalar values).  The external
collaborators (the `pdf-parse` native parser and the Tesseract OCR engine)
enter the model as explicit arguments: a parse outcome is
`Except String ParseData` (the `String` being the thrown error message) and
an OCR outcome is the text it returned.  JavaScript number arithmetic on
the classifier ratios is modelled over `ℚ`; for every comparison the
claims exercise (equality with `0.15`, strict `<`, `0.5`) the rational and
the IEEE-double evaluations agree, because the operands are correctly
rounded images of the same small rationals.
-/

namespace PdfService

/-! ## Configuration (`CONFIG`, pdfService.ts lines 21-26) -/

def MIN_TEXT_LENGTH : Nat := 50

def MIN_LETTER_RATIO : ℚ := 15 / 100

def CHUNK_SIZE : Nat := 6000

def CHUNK_OVERLAP : Nat := 500

/-! ## Character classes

`isCtrlRemoved` is the class removed by the first `replace` of `cleanText`
(`[\x00-\x09\x0B\x0C\x0E-\x1F\x7F]`); note that `\n` (0x0A) and `\r`
(0x0D) are deliberately outside it.  `isHorizWs` is `[ \t]`.  `isJsWs` is
the WhiteSpace ∪ LineTerminator set that JavaScript `String.prototype.trim`
strips. -/

def isCtrlRemoved (c : Char) : Bool :=
  decide (c.toNat ≤ 0x09 ∨ c.toNat = 0x0B ∨ c.toNat = 0x0C ∨
    (0x0E ≤ c.toNat ∧ c.toNat ≤ 0x1F) ∨ c.toNat = 0x7F)

def isHorizWs (c : Char) : Bool :=
  decide (c = ' ' ∨ c = '\t')

def isJsWs (c : Char) : Bool :=
  decide (c.toNat = 0x09 ∨ c.toNat = 0x0A ∨ c.toNat = 0x0B ∨ c.toNat = 0x0C ∨
    c.toNat = 0x0D ∨ c.toNat = 0x20 ∨ c.toNat = 0xA0 ∨ c.toNat = 0x1680 ∨
    (0x2000 ≤ c.toNat ∧ c.toNat ≤ 0x200A) ∨ c.toNat = 0x2028 ∨
    c.toNat = 0x2029 ∨ c.toNat = 0x202F ∨ c.toNat = 0x205F ∨
    c.toNat = 0x3000 ∨ c.toNat = 0xFEFF)

/-! ## `trim` — JavaScript `String.prototype.trim` on `List Char` -/

def trim (l : List Char) : List Char :=
  ((l.dropWhile isJsWs).reverse.dropWhile isJsWs).reverse

/-! ## The normalizer `cleanText` (pdfService.ts lines 65-75)

The four regex passes are embedded as structural recursions:
* `removeCtrl`    — `.replace(/[\x00-\x09\x0B\x0C\x0E-\x1F\x7F]/g, "")`
* `collapseWs`    — `.replace(/[ \t]+/g, " ")` (every maximal run of
  spaces/tabs becomes a single space)
* `collapseNl`    — `.replace(/\n{3,}/g, "\n\n")` (every maximal run of
  `k ≥ 3` newlines becomes two; shorter runs are untouched, i.e. every
  run becomes `min k 2`)
* `splitNl` / `joinNl` — `.split("\n")` / `.join("\n")` with JavaScript
  semantics (empty pieces kept; `splitNl [] = [[]]`). -/

def removeCtrl (l : List Char) : List Char :=
  l.filter (fun c => !isCtrlRemoved c)

/-- State: `true` when the previous input character was part of a space/tab
run whose single replacement space has already been emitted. -/
def collapseWsAux : Bool → List Char → List Char
  | _, [] => []
  | inRun, c :: rest =>
    if isHorizWs c then
      if inRun then collapseWsAux true rest
      else ' ' :: collapseWsAux true rest
    else c :: collapseWsAux false rest

def collapseWs (l : List Char) : List Char :=
  collapseWsAux false l

/-- State: number of newlines already emitted for the current newline run
(capped at 2). -/
def collapseNlAux : Nat → List Char → List Char
  | _, [] => []
  | k, c :: rest =>
    if c = '\n' then
      if k < 2 then '\n' :: collapseNlAux (k + 1) rest
      else collapseNlAux k rest
    else c :: collapseNlAux 0 rest

def collapseNl (l : List Char) : List Char :=
  collapseNlAux 0 l

def splitNl : List Char → List (List Char)
  | [] => [[]]
  | c :: rest =>
    match splitNl rest with
    | [] => [[c]]
    | p :: ps => if c = '\n' then [] :: p :: ps else (c :: p) :: ps

def joinNl : List (List Char) → List Char
  | [] => []
  | [p] => p
  | p :: ps => p ++ '\n' :: joinNl ps

/-- The normalizer `cleanText` (pdfService.ts lines 65-75): remove control characters,
collapse horizontal whitespace, collapse newline runs, trim every line,
trim the whole text.  `if (!text) return ""` is the empty-string guard. -/
def cleanText (l : List Char) : List Char :=
  if l = [] then []
  else
    trim (joinNl (((splitNl (collapseNl (collapseWs (removeCtrl l)))).map trim)))

/-! ## The quality classifier (pdfService.ts lines 35-63)

The regex character classes of `containsRealWords`:
* Arabic-script letters for the ratio count: `[؀-ۿݐ-ݿࢠ-ࣿ]`
* Latin-script letters: `[a-zA-ZÀ-ÿ]`
* digits: `[0-9]`
* Arabic-script "word" characters (line 50 uses the narrower class
  `[؀-ۿݐ-ݿ]`, without Arabic Extended-A).

A global regex match count over a one-character class is the number of
matching characters; a global match count of `X{3,}` is the number of
maximal runs of `X`-characters of length at least 3. -/

def isArabicLetter (c : Char) : Bool :=
  decide ((0x0600 ≤ c.toNat ∧ c.toNat ≤ 0x06FF) ∨
    (0x0750 ≤ c.toNat ∧ c.toNat ≤ 0x077F) ∨
    (0x08A0 ≤ c.toNat ∧ c.toNat ≤ 0x08FF))

def isLatinLetter (c : Char) : Bool :=
  decide ((0x61 ≤ c.toNat ∧ c.toNat ≤ 0x7A) ∨ (0x41 ≤ c.toNat ∧ c.toNat ≤ 0x5A) ∨
    (0xC0 ≤ c.toNat ∧ c.toNat ≤ 0xFF))

def isDigitChar (c : Char) : Bool :=
  decide (0x30 ≤ c.toNat ∧ c.toNat ≤ 0x39)

def isArabicWordChar (c : Char) : Bool :=
  decide ((0x0600 ≤ c.toNat ∧ c.toNat ≤ 0x06FF) ∨
    (0x0750 ≤ c.toNat ∧ c.toNat ≤ 0x077F))

def countMatches (p : Char → Bool) (l : List Char) : Nat :=
  (l.filter p).length

/-- State: length so far of the current run of `p`-characters. -/
def wordRunsAux (p : Char → Bool) : Nat → List Char → Nat
  | run, [] => if 3 ≤ run then 1 else 0
  | run, c :: rest =>
    if p c then wordRunsAux p (run + 1) rest
    else (if 3 ≤ run then 1 else 0) + wordRunsAux p 0 rest

/-- Number of maximal runs of `p`-characters of length `≥ 3` — the number
of global matches of `X{3,}`. -/
def countWordRuns (p : Char → Bool) (l : List Char) : Nat :=
  wordRunsAux p 0 l

def totalLetters (text : List Char) : Nat :=
  countMatches isArabicLetter text + countMatches isLatinLetter text

def letterRatio (text : List Char) : ℚ :=
  (totalLetters text : ℚ) / (text.length : ℚ)

def digitRatio (text : List Char) : ℚ :=
  (countMatches isDigitChar text : ℚ) / (text.length : ℚ)

def totalWords (text : List Char) : Nat :=
  countWordRuns isArabicWordChar text + countWordRuns isLatinLetter text

/-- The word-density test of lines 50-55: `totalWords < expectedWords * 0.1`
rejects, where `expectedWords = totalChars / 10`. -/
def wordDensityOk (text : List Char) : Bool :=
  !decide ((totalWords text : ℚ) < (text.length : ℚ) / 10 * (1 / 10))

/-- The classifier core `containsRealWords` (pdfService.ts lines 35-58).  `!text` is subsumed by
`text.length < 20` (an empty string has length `0 < 20`). -/
def containsRealWords (text : List Char) : Bool :=
  if text.length < 20 then false
  else if 1 / 2 < digitRatio text ∧ letterRatio text < MIN_LETTER_RATIO then false
  else if letterRatio text < MIN_LETTER_RATIO then false
  else wordDensityOk text

/-- The quality verdict `isTextQualityGood` (pdfService.ts lines 60-63). -/
def isTextQualityGood (text : List Char) : Bool :=
  if (trim text).length < MIN_TEXT_LENGTH then false
  else containsRealWords text

/-! ## The chunker (pdfService.ts lines 77-111)

`matchesAt pat l i` says the two-character delimiter `pat` occurs in `l`
at position `i`; `lastIndexOf` is JavaScript `String.prototype.lastIndexOf`
(the largest such position, scanning from the right).  `computeEnd` is the
body computing `endIndex` (lines 85-101), `nextStart` the advance of
`startIndex` (lines 106-107).  The `while` loop is embedded with explicit
fuel; `chunkText` supplies `text.length`, which suffices because every
iteration strictly advances `startIndex` (claim C4). -/

def matchesAt (pat l : List Char) (i : Nat) : Bool :=
  decide ((l.drop i).take pat.length = pat)

def lastIndexOf (pat l : List Char) : Option Nat :=
  (List.range (l.length + 1)).reverse.find? (fun i => matchesAt pat l i)

/-- Local `searchStart` (line 88): `Math.max(startIndex + CHUNK_SIZE - 200, startIndex)`. -/
def searchStartIdx (startIndex : Nat) : Nat :=
  max (startIndex + CHUNK_SIZE - 200) startIndex

/-- Local `searchEnd` (line 89): `Math.min(startIndex + CHUNK_SIZE + 200, text.length)`. -/
def searchEndIdx (text : List Char) (startIndex : Nat) : Nat :=
  min (startIndex + CHUNK_SIZE + 200) text.length

/-- Local `searchZone` (line 90): `text.slice(searchStart, searchEnd)`. -/
def searchZone (text : List Char) (startIndex : Nat) : List Char :=
  (text.drop (searchStartIdx startIndex)).take
    (searchEndIdx text startIndex - searchStartIdx startIndex)

/-- Local `breakPoints` (lines 92-96): the three `lastIndexOf` results with the
`-1` (not-found) entries filtered out. -/
def breakPoints (text : List Char) (startIndex : Nat) : List Nat :=
  ([lastIndexOf ['.', ' '] (searchZone text startIndex),
    lastIndexOf ['.', '\n'] (searchZone text startIndex),
    lastIndexOf ['\n', '\n'] (searchZone text startIndex)]).filterMap id

/-- The value of `endIndex` as left by lines 85-101: the tentative cut
`startIndex + CHUNK_SIZE`, moved to just after the latest delimiter in the
search zone when one exists (`Math.max(...breakPoints)` is the fold of
`Nat.max` over the non-empty list). -/
def computeEnd (text : List Char) (startIndex : Nat) : Nat :=
  if startIndex + CHUNK_SIZE < text.length then
    if 0 < (breakPoints text startIndex).length then
      searchStartIdx startIndex + (breakPoints text startIndex).foldl Nat.max 0 + 1
    else startIndex + CHUNK_SIZE
  else startIndex + CHUNK_SIZE

/-- Lines 106-107: `startIndex = endIndex - CHUNK_OVERLAP`, reset to
`endIndex` when that stalls (`startIndex <= 0`) or lands in the final 100
characters (`startIndex >= text.length - 100`). -/
def nextStart (text : List Char) (startIndex : Nat) : Nat :=
  if computeEnd text startIndex - CHUNK_OVERLAP = 0 ∨
      text.length - 100 ≤ computeEnd text startIndex - CHUNK_OVERLAP then
    computeEnd text startIndex
  else computeEnd text startIndex - CHUNK_OVERLAP

def chunkLoop : Nat → List Char → Nat → List (List Char)
  | 0, _, _ => []
  | fuel + 1, text, startIndex =>
    if startIndex < text.length then
      let endIndex := computeEnd text startIndex
      let chunk := trim ((text.drop startIndex).take (endIndex - startIndex))
      let rest := chunkLoop fuel text (nextStart text startIndex)
      if 0 < chunk.length then chunk :: rest else rest
    else []

/-- The chunker `chunkText` (pdfService.ts lines 77-111). -/
def chunkText (text : List Char) : List (List Char) :=
  if text.length = 0 then []
  else if text.length ≤ CHUNK_SIZE then [text]
  else chunkLoop text.length text 0

/-! ## The extraction orchestrator (pdfService.ts lines 160-275)

`ParseData` is what `pdf-parse` resolves with (`data.text`, `data.numpages`);
a rejected promise is `.error msg`.  `data.text || ""` is the identity on
strings already present, and `data.numpages || 1` maps a falsy (0) page
count to 1.  `extractPdfTextWith` is `extractPdfText` with the result of
`runOcrOnPdf` abstracted as an argument; `runOcrOnPdf` (lines 255-275)
re-invokes the native parser and returns its text (catching any error as
`""`), and `extractPdfText` composes the two with the same deterministic
parse outcome. -/

structure ParseData where
  text : List Char
  numpages : Nat
deriving DecidableEq, Repr

structure PdfExtractionResult where
  fullText : List Char
  chunks : List (List Char)
  pagesProcessed : Nat
  ocrUsed : Bool
deriving DecidableEq, Repr

def emptyResult : PdfExtractionResult :=
  { fullText := [], chunks := [], pagesProcessed := 0, ocrUsed := false }

/-- Standard-path `extractPdfText` (lines 163-213) with the OCR fallback text as an
explicit argument. -/
def extractPdfTextWith (parse : Except String ParseData)
    (ocrText : List Char) : PdfExtractionResult :=
  match parse with
  | .error _ => emptyResult
  | .ok data =>
    let text := data.text
    let numPages := if data.numpages = 0 then 1 else data.numpages
    let adopted :=
      if isTextQualityGood text then (text, false)
      else if text.length < ocrText.length then (ocrText, true)
      else (text, false)
    let cleanedText := cleanText adopted.1
    { fullText := cleanedText, chunks := chunkText cleanedText,
      pagesProcessed := numPages, ocrUsed := adopted.2 }

/-- Fallback `runOcrOnPdf` (lines 255-275): parses the same buffer again and returns
the parsed text (the quality check there only logs); a parser error is
caught and becomes `""`. -/
def runOcrOnPdf (parse : Except String ParseData) : List Char :=
  match parse with
  | .ok data => data.text
  | .error _ => []

/-- Composed `extractPdfText` on a deterministic parser: both `pdf(pdfBuffer)` calls
observe the same outcome. -/
def extractPdfText (parse : Except String ParseData) : PdfExtractionResult :=
  extractPdfTextWith parse (runOcrOnPdf parse)

/-- Forced-OCR `extractPdfWithOcr` (lines 218-249) with the OCR text abstracted.  The
page-count query `pdf(pdfBuffer)` sits inside the same `try`, so its error
discards the OCR text and returns the catch-block sentinel (with
`ocrUsed := true`). -/
def extractPdfWithOcrWith (ocrText : List Char)
    (parse : Except String ParseData) : PdfExtractionResult :=
  match parse with
  | .error _ =>
    { fullText := [], chunks := [], pagesProcessed := 0, ocrUsed := true }
  | .ok data =>
    let cleanedText := cleanText ocrText
    { fullText := cleanedText, chunks := chunkText cleanedText,
      pagesProcessed := if data.numpages = 0 then 1 else data.numpages,
      ocrUsed := true }

def extractPdfWithOcr (parse : Except String ParseData) : PdfExtractionResult :=
  extractPdfWithOcrWith (runOcrOnPdf parse) parse

/-! ## Verification-layer predicates

`NTS` ("no two spaces") and `TP` ("trimmed-line pairs") are relations on
adjacent characters used by the idempotence analysis of `cleanText`; they
are proof-layer devices, not translations of source code.  `NTS a b` says
the pair is not a double space; `TP a b` says the pair puts no trimmable
whitespace against a newline on either side. -/

def NTS (a b : Char) : Prop := ¬(a = ' ' ∧ b = ' ')

def TP (a b : Char) : Prop :=
  ¬(isJsWs a = true ∧ a ≠ '\n' ∧ b = '\n') ∧
  ¬(a = '\n' ∧ isJsWs b = true ∧ b ≠ '\n')

/-! ## Sanity checks -/

example : cleanText "  a \t b  ".toList = "a b".toList := by decide

example : cleanText "a\n\n\n\nb".toList = "a\n\nb".toList := by decide

example :
    cleanText ['a', '\n', ' ', '\n', ' ', '\n', 'b'] =
      ['a', '\n', '\n', '\n', 'b'] := by decide

example : containsRealWords (List.replicate 25 '0') = false := by
  have h1 : totalLetters (List.replicate 25 '0') = 0 := by decide
  have h2 : countMatches isDigitChar (List.replicate 25 '0') = 25 := by decide
  have h3 : (List.replicate 25 '0').length = 25 := by decide
  simp only [containsRealWords, letterRatio, digitRatio, h1, h2, h3,
    MIN_LETTER_RATIO]
  norm_num

example :
    containsRealWords ('a' :: 'b' :: 'c' :: List.replicate 17 ' ') = true := by
  have h1 : totalLetters ('a' :: 'b' :: 'c' :: List.replicate 17 ' ') = 3 := by
    decide
  have h2 : countMatches isDigitChar ('a' :: 'b' :: 'c' :: List.replicate 17 ' ') = 0 := by
    decide
  have h3 : ('a' :: 'b' :: 'c' :: List.replicate 17 ' ').length = 20 := by decide
  have h4 : totalWords ('a' :: 'b' :: 'c' :: List.replicate 17 ' ') = 1 := by
    decide
  simp only [containsRealWords, letterRatio, digitRatio, wordDensityOk, h1, h2,
    h3, h4, MIN_LETTER_RATIO]
  norm_num

example : isTextQualityGood [] = false := by decide

example : chunkText [] = [] := by decide

example : chunkText [' ', 'a'] = [[' ', 'a']] := by decide

example :
    extractPdfText (.ok { text := [], numpages := 3 }) =
      { fullText := [], chunks := [], pagesProcessed := 3, ocrUsed := false } := by
  decide

example : extractPdfText (.error "bad pdf") = emptyResult := by decide

/-! ## Orchestrator claims -/

/-- C1. In the standard extraction path, when the native text is
classified bad, the OCR text is adopted and `ocrUsed` set to `true` exactly
when the OCR text is strictly longer than the native text; otherwise the
native text is kept and `ocrUsed` is `false`.  Length alone decides: the
statement holds for every pair of native and OCR texts, with no further
condition on the quality verdict. -/
theorem extractPdfText_length_tiebreak (data : ParseData) (ocrText : List Char)
    (hbad : isTextQualityGood data.text = false) :
    (extractPdfTextWith (.ok data) ocrText).ocrUsed
        = decide (data.text.length < ocrText.length) ∧
    (extractPdfTextWith (.ok data) ocrText).fullText
        = cleanText
            (if data.text.length < ocrText.length then ocrText else data.text) := by
  by_cases h : data.text.length < ocrText.length <;>
    simp [extractPdfTextWith, hbad, h]

theorem extractPdfText_length_tiebreak_witness :
    isTextQualityGood (ParseData.text ⟨[], 5⟩) = false ∧
    ((extractPdfTextWith (.ok ⟨[], 5⟩) ['a']).ocrUsed
        = decide ((ParseData.text ⟨[], 5⟩).length < (['a'] : List Char).length) ∧
      (extractPdfTextWith (.ok ⟨[], 5⟩) ['a']).fullText
        = cleanText
            (if (ParseData.text ⟨[], 5⟩).length < (['a'] : List Char).length
             then ['a'] else ParseData.text ⟨[], 5⟩)) :=
  ⟨by decide, extractPdfText_length_tiebreak ⟨[], 5⟩ ['a'] (by decide)⟩

/-- C2. With a deterministic native parser, `extractPdfText` never
reports OCR use: the fallback `runOcrOnPdf` merely re-parses the same
buffer, so its text is never strictly longer than the native text and the
adoption condition can never hold. -/
theorem extractPdfText_ocrUsed_false (parse : Except String ParseData) :
    (extractPdfText parse).ocrUsed = false := by
  cases parse with
  | error e => rfl
  | ok data => by_cases h : isTextQualityGood data.text <;>
      simp [extractPdfText, extractPdfTextWith, runOcrOnPdf, h]

/-- C7. When the native parser fails on the standard path,
`extractPdfText` returns the all-empty sentinel
`{fullText := "", chunks := [], pagesProcessed := 0, ocrUsed := false}`;
being a total function of the parse outcome, it never raises. -/
theorem extractPdfText_parse_failure (e : String) :
    extractPdfText (.error e) = emptyResult := rfl

/-- C8 counterexample. In the forced-OCR path, a parser *error* on the
page-count query does not keep the OCR text with `pagesProcessed = 1`: the
query sits inside the same `try`, so the catch block discards the OCR text
and returns the all-empty sentinel with `pagesProcessed = 0`. -/
theorem extractPdfWithOcr_parse_error_counterexample :
    (extractPdfWithOcrWith ['h', 'i'] (.error "boom")).pagesProcessed = 0 ∧
    (extractPdfWithOcrWith ['h', 'i'] (.error "boom")).fullText ≠
      cleanText ['h', 'i'] := by decide

/-- C8, amended. In the forced-OCR path, if the page-count query
*succeeds but reports a falsy (zero) page count*, the result still contains
the OCR-derived text (normalized and chunked) and `pagesProcessed` degrades
to the sentinel value 1, for every OCR outcome; if the query *throws*, the
whole result degrades to the empty sentinel with `ocrUsed = true`. -/
theorem extractPdfWithOcr_pagecount_degrade (ocrText : List Char) :
    (∀ data : ParseData, data.numpages = 0 →
      extractPdfWithOcrWith ocrText (.ok data) =
        { fullText := cleanText ocrText,
          chunks := chunkText (cleanText ocrText),
          pagesProcessed := 1, ocrUsed := true }) ∧
    ∀ e : String,
      extractPdfWithOcrWith ocrText (.error e) =
        { fullText := [], chunks := [], pagesProcessed := 0,
          ocrUsed := true } := by
  refine ⟨fun data h0 => ?_, fun e => rfl⟩
  simp [extractPdfWithOcrWith, h0]

theorem extractPdfWithOcr_pagecount_degrade_witness :
    extractPdfWithOcrWith ['h'] (.ok ⟨['x'], 0⟩) =
      { fullText := cleanText ['h'], chunks := chunkText (cleanText ['h']),
        pagesProcessed := 1, ocrUsed := true } ∧
    extractPdfWithOcrWith ['h'] (.error "e") =
      { fullText := [], chunks := [], pagesProcessed := 0, ocrUsed := true } :=
  ⟨(extractPdfWithOcr_pagecount_degrade ['h']).1 ⟨['x'], 0⟩ rfl,
   (extractPdfWithOcr_pagecount_degrade ['h']).2 "e"⟩

/-- C9. The ratio-floor comparisons of the quality classifier are
strict: a sample of sufficient length whose `letterRatio` equals the
`0.15` threshold exactly is not rejected by either letter-ratio check —
the classifier's verdict is then exactly the word-density test's. -/
theorem containsRealWords_boundary (text : List Char)
    (hlen : ¬ text.length < 20) (hratio : letterRatio text = 15 / 100) :
    containsRealWords text = wordDensityOk text := by
  simp only [containsRealWords, if_neg hlen, hratio, MIN_LETTER_RATIO]
  norm_num

theorem containsRealWords_boundary_witness :
    letterRatio ('a' :: 'b' :: 'c' :: List.replicate 17 ' ') = 15 / 100 ∧
    containsRealWords ('a' :: 'b' :: 'c' :: List.replicate 17 ' ') =
      wordDensityOk ('a' :: 'b' :: 'c' :: List.replicate 17 ' ') := by
  have hr : letterRatio ('a' :: 'b' :: 'c' :: List.replicate 17 ' ') = 15 / 100 := by
    have h1 : totalLetters ('a' :: 'b' :: 'c' :: List.replicate 17 ' ') = 3 := by
      decide
    have h3 : ('a' :: 'b' :: 'c' :: List.replicate 17 ' ').length = 20 := by
      decide
    simp only [letterRatio, h1, h3]
    norm_num
  exact ⟨hr, containsRealWords_boundary _ (by decide) hr⟩

/-- C6 counterexample. For a short input that is not already trimmed,
`chunkText` does *not* return `[trim input]`: line 79 returns `[text]`
without trimming. -/
theorem chunkText_small_not_trimmed :
    chunkText [' ', 'a'] ≠ [trim [' ', 'a']] := by decide

/-- C6, amended. For every non-empty input of length at most
`CHUNK_SIZE`, `chunkText` returns exactly the single-element sequence
containing the *untrimmed* input; this coincides with `[trim input]`
exactly on inputs that are already trimmed (as normalized pipeline text
is). -/
theorem chunkText_small (text : List Char) (hne : text ≠ [])
    (hlen : text.length ≤ CHUNK_SIZE) :
    chunkText text = [text] ∧ (trim text = text → chunkText text = [trim text]) := by
  have h0 : ¬ text.length = 0 := by
    simpa [List.length_eq_zero] using hne
  constructor
  · simp [chunkText, if_neg h0, if_pos hlen, hne]
  · intro ht
    rw [ht]
    simp [chunkText, if_neg h0, if_pos hlen, hne]

theorem chunkText_small_witness :
    chunkText ['a'] = [['a']] ∧
      (trim ['a'] = ['a'] → chunkText ['a'] = [trim ['a']]) :=
  chunkText_small ['a'] (by decide) (by decide)

/-! ## Chunker lemmas -/

theorem length_dropWhile_le (p : Char → Bool) (l : List Char) :
    (l.dropWhile p).length ≤ l.length := by
  have h := congrArg List.length (List.takeWhile_append_dropWhile p l)
  simp only [List.length_append] at h
  omega

theorem trim_length_le (l : List Char) : (trim l).length ≤ l.length := by
  simp only [trim, List.length_reverse]
  calc ((l.dropWhile isJsWs).reverse.dropWhile isJsWs).length
      ≤ (l.dropWhile isJsWs).reverse.length := length_dropWhile_le _ _
    _ = (l.dropWhile isJsWs).length := List.length_reverse _
    _ ≤ l.length := length_dropWhile_le _ _

theorem mem_dropWhile_of_mem (p : Char → Bool) (l : List Char) (c : Char)
    (hc : c ∈ l) (hp : p c = false) : c ∈ l.dropWhile p := by
  rw [← List.takeWhile_append_dropWhile p l, List.mem_append] at hc
  rcases hc with h | h
  · exact absurd (List.mem_takeWhile_imp h) (by simp [hp])
  · exact h

theorem mem_trim_of_mem (l : List Char) (c : Char) (hc : c ∈ l)
    (hws : isJsWs c = false) : c ∈ trim l := by
  simp only [trim, List.mem_reverse]
  exact mem_dropWhile_of_mem _ _ _ (by simpa using mem_dropWhile_of_mem _ _ _ hc hws) hws

theorem matchesAt_bound (pat l : List Char) (i : Nat) (hpat : 0 < pat.length)
    (h : matchesAt pat l i = true) : i + pat.length ≤ l.length := by
  simp only [matchesAt, decide_eq_true_eq] at h
  have hlen := congrArg List.length h
  simp only [List.length_take, List.length_drop] at hlen
  omega

theorem lastIndexOf_matches (pat l : List Char) (m : Nat)
    (h : lastIndexOf pat l = some m) : matchesAt pat l m = true :=
  List.find?_some h

theorem foldl_max_le (B : Nat) :
    ∀ (l : List Nat) (a : Nat), a ≤ B → (∀ x ∈ l, x ≤ B) →
      l.foldl Nat.max a ≤ B := by
  intro l
  induction l with
  | nil => intro a ha _; exact ha
  | cons x xs ih =>
    intro a ha hall
    simp only [List.foldl_cons]
    exact ih (Nat.max a x)
      (Nat.max_le.mpr ⟨ha, hall x (List.mem_cons_self _ _)⟩)
      (fun y hy => hall y (List.mem_cons_of_mem _ hy))

theorem searchStartIdx_eq (s : Nat) : searchStartIdx s = s + 5800 := by
  simp only [searchStartIdx, CHUNK_SIZE]
  omega

theorem searchZone_length_le (text : List Char) (s : Nat) :
    (searchZone text s).length ≤ 400 := by
  simp only [searchZone, searchStartIdx_eq, searchEndIdx, CHUNK_SIZE,
    List.length_take, List.length_drop]
  omega

set_option maxRecDepth 4000 in
theorem mem_breakPoints_le (text : List Char) (s : Nat) (x : Nat)
    (hx : x ∈ breakPoints text s) : x ≤ 398 := by
  simp only [breakPoints, List.mem_filterMap, List.mem_cons,
    List.not_mem_nil, or_false, id_eq] at hx
  rcases hx with ⟨o, ho, hox⟩
  have hzone := searchZone_length_le text s
  have hb : x + 2 ≤ (searchZone text s).length := by
    rcases ho with rfl | rfl | rfl
    · exact matchesAt_bound ['.', ' '] _ _ (by decide)
        (lastIndexOf_matches _ _ _ hox)
    · exact matchesAt_bound ['.', '\n'] _ _ (by decide)
        (lastIndexOf_matches _ _ _ hox)
    · exact matchesAt_bound ['\n', '\n'] _ _ (by decide)
        (lastIndexOf_matches _ _ _ hox)
  omega

theorem computeEnd_lower (text : List Char) (s : Nat) :
    s + 5801 ≤ computeEnd text s := by
  simp only [computeEnd, CHUNK_SIZE, searchStartIdx_eq]
  split
  · split <;> omega
  · omega

theorem computeEnd_upper (text : List Char) (s : Nat) :
    computeEnd text s ≤ s + 6199 := by
  simp only [computeEnd, CHUNK_SIZE, searchStartIdx_eq]
  split
  · split
    · have hmax : (breakPoints text s).foldl Nat.max 0 ≤ 398 :=
        foldl_max_le 398 _ 0 (by omega) (mem_breakPoints_le text s)
      omega
    · omega
  · omega

theorem nextStart_gt (text : List Char) (s : Nat) : s < nextStart text s := by
  have h := computeEnd_lower text s
  simp only [nextStart, CHUNK_OVERLAP]
  split <;> omega

theorem nextStart_le (text : List Char) (s : Nat) :
    nextStart text s ≤ computeEnd text s := by
  simp only [nextStart, CHUNK_OVERLAP]
  split <;> omega

theorem chunkLoop_fuel_stable :
    ∀ (f₁ f₂ : Nat) (text : List Char) (s : Nat),
      text.length - s ≤ f₁ → text.length - s ≤ f₂ →
      chunkLoop f₁ text s = chunkLoop f₂ text s := by
  intro f₁
  induction f₁ with
  | zero =>
    intro f₂ text s h1 _
    have hs : ¬ s < text.length := by omega
    cases f₂ with
    | zero => rfl
    | succ m => simp [chunkLoop, hs]
  | succ n ih =>
    intro f₂ text s h1 h2
    by_cases hs : s < text.length
    · cases f₂ with
      | zero => omega
      | succ m =>
        have hns := nextStart_gt text s
        simp only [chunkLoop, if_pos hs]
        rw [ih m text (nextStart text s) (by omega) (by omega)]
    · cases f₂ with
      | zero => simp [chunkLoop, hs]
      | succ m => simp [chunkLoop, hs]

/-- C4. The chunker terminates on every input: every loop iteration
strictly advances `startIndex` (`nextStart` exceeds its argument for every
text, including texts with no delimiter at all), so the fuelled embedding
of the `while` loop is independent of any sufficiently large fuel and
`chunkText` produces a (finite) list. -/
theorem chunkText_terminates (text : List Char) (startIndex f : Nat)
    (hf : text.length - startIndex ≤ f) :
    startIndex < nextStart text startIndex ∧
    chunkLoop f text startIndex =
      chunkLoop (text.length - startIndex) text startIndex :=
  ⟨nextStart_gt text startIndex,
   chunkLoop_fuel_stable f _ text startIndex hf le_rfl⟩

theorem chunkText_terminates_witness :
    0 < nextStart ['a'] 0 ∧
    chunkLoop 5 ['a'] 0 = chunkLoop ((['a'] : List Char).length - 0) ['a'] 0 :=
  chunkText_terminates ['a'] 0 5 (by decide)

theorem chunkLoop_chunk_le :
    ∀ (f : Nat) (text : List Char) (s : Nat) (ch : List Char),
      ch ∈ chunkLoop f text s → ch.length ≤ CHUNK_SIZE + 200 := by
  intro f
  induction f with
  | zero => intro text s ch h; simp [chunkLoop] at h
  | succ n ih =>
    intro text s ch h
    by_cases hs : s < text.length
    · simp only [chunkLoop, if_pos hs] at h
      have hchunk :
          (trim ((text.drop s).take (computeEnd text s - s))).length
            ≤ CHUNK_SIZE + 200 := by
        have h1 := trim_length_le ((text.drop s).take (computeEnd text s - s))
        have h2 : ((text.drop s).take (computeEnd text s - s)).length
            ≤ computeEnd text s - s := by
          simp [List.length_take]
        have h3 := computeEnd_upper text s
        simp only [CHUNK_SIZE] at h3 ⊢
        omega
      split at h
      · rcases List.mem_cons.mp h with rfl | h
        · exact hchunk
        · exact ih text (nextStart text s) ch h
      · exact ih text (nextStart text s) ch h
    · simp [chunkLoop, hs] at h

/-- C10. Every chunk produced by `chunkText` has length at most
`CHUNK_SIZE + 200` (6200): the delimiter search can move a chunk's end at
most 199 characters past the tentative cut, and trimming only shortens
chunks. -/
theorem chunkText_chunk_bounded (text : List Char) (ch : List Char)
    (h : ch ∈ chunkText text) : ch.length ≤ CHUNK_SIZE + 200 := by
  simp only [chunkText] at h
  split at h
  · simp at h
  · split at h
    · rename_i hle
      rcases List.mem_singleton.mp h with rfl
      simp only [CHUNK_SIZE] at hle ⊢
      omega
    · exact chunkLoop_chunk_le text.length text 0 ch h

theorem chunkText_chunk_bounded_witness :
    (['a'] : List Char).length ≤ CHUNK_SIZE + 200 :=
  chunkText_chunk_bounded ['a'] ['a'] (by decide)

theorem chunkLoop_covers :
    ∀ (f : Nat) (text : List Char) (s i : Nat) (hi : i < text.length),
      text.length - s ≤ f → s ≤ i →
      isJsWs (text.get ⟨i, hi⟩) = false →
      ∃ ch ∈ chunkLoop f text s, text.get ⟨i, hi⟩ ∈ ch := by
  intro f
  induction f with
  | zero => intro text s i hi hf hsi _; omega
  | succ n ih =>
    intro text s i hi hf hsi hws
    have hs : s < text.length := by omega
    by_cases hie : i < computeEnd text s
    · have hlen : i - s < ((text.drop s).take (computeEnd text s - s)).length := by
        simp only [List.length_take, List.length_drop]
        omega
      have hget : ((text.drop s).take (computeEnd text s - s)).get ⟨i - s, hlen⟩
          = text.get ⟨i, hi⟩ := by
        simp only [List.get_eq_getElem]
        rw [List.getElem_take, List.getElem_drop]
        congr 1
        omega
      have hmem : text.get ⟨i, hi⟩ ∈ (text.drop s).take (computeEnd text s - s) := by
        rw [← hget]
        exact List.get_mem _ _ _
      have htr := mem_trim_of_mem _ _ hmem hws
      have hpos : 0 < (trim ((text.drop s).take (computeEnd text s - s))).length :=
        List.length_pos.mpr (List.ne_nil_of_mem htr)
      refine ⟨trim ((text.drop s).take (computeEnd text s - s)), ?_, htr⟩
      simp only [chunkLoop, if_pos hs, if_pos hpos]
      exact List.mem_cons_self _ _
    · have hns1 := nextStart_gt text s
      have hns2 := nextStart_le text s
      obtain ⟨ch, hch, hcm⟩ :=
        ih text (nextStart text s) i hi (by omega) (by omega) hws
      refine ⟨ch, ?_, hcm⟩
      simp only [chunkLoop, if_pos hs]
      split
      · exact List.mem_cons_of_mem _ hch
      · exact hch

theorem trim_eq_nil_of_all_ws (l : List Char) (h : ∀ c ∈ l, isJsWs c = true) :
    trim l = [] := by
  simp only [trim, List.dropWhile_eq_nil_iff.mpr h, List.reverse_nil,
    List.dropWhile_nil]

theorem chunkLoop_all_ws :
    ∀ (f : Nat) (text : List Char) (s : Nat),
      (∀ c ∈ text, isJsWs c = true) → chunkLoop f text s = [] := by
  intro f
  induction f with
  | zero => intro text s _; rfl
  | succ n ih =>
    intro text s h
    by_cases hs : s < text.length
    · have hnil : trim ((text.drop s).take (computeEnd text s - s)) = [] :=
        trim_eq_nil_of_all_ws _ fun c hc =>
          h c (List.drop_subset s text (List.take_subset _ _ hc))
      simp only [chunkLoop, if_pos hs, hnil, List.length_nil,
        Nat.lt_irrefl, if_false]
      exact ih text (nextStart text s) h
    · simp [chunkLoop, hs]

/-- C5 counterexample. Not every character of the input appears in some
chunk: on 6001 spaces the loop's chunks all trim to the empty string and
are dropped, so `chunkText` returns no chunks although the input is
non-empty. -/
theorem chunkText_coverage_counterexample :
    ' ' ∈ List.replicate 6001 ' ' ∧
    chunkText (List.replicate 6001 ' ') = [] := by
  constructor
  · exact List.mem_replicate.mpr ⟨by omega, rfl⟩
  · have hlen : (List.replicate 6001 ' ').length = 6001 :=
      List.length_replicate 6001 ' '
    have hws : ∀ c ∈ List.replicate 6001 ' ', isJsWs c = true := by
      intro c hc
      rw [List.eq_of_mem_replicate hc]
      decide
    rw [chunkText, hlen, if_neg (by norm_num),
      if_neg (by norm_num [CHUNK_SIZE])]
    exact chunkLoop_all_ws 6001 _ 0 hws

/-- C5, amended. Every *non-whitespace* character of the input appears
in some chunk returned by `chunkText`: whitespace characters can be lost to
chunk trimming, but a character that JavaScript `trim` does not strip
survives in the chunk whose index range covers its position. -/
theorem chunkText_covers (text : List Char) (c : Char) (hc : c ∈ text)
    (hws : isJsWs c = false) : ∃ ch ∈ chunkText text, c ∈ ch := by
  obtain ⟨⟨i, hi⟩, rfl⟩ := List.mem_iff_get.mp hc
  by_cases h0 : text.length = 0
  · omega
  · by_cases hsm : text.length ≤ CHUNK_SIZE
    · refine ⟨text, ?_, List.get_mem _ _ _⟩
      simp [chunkText, h0, hsm]
    · have h := chunkLoop_covers text.length text 0 i hi (by omega) (by omega) hws
      simpa [chunkText, h0, hsm] using h

theorem chunkText_covers_witness :
    ∃ ch ∈ chunkText ['h', 'i'], 'h' ∈ ch :=
  chunkText_covers ['h', 'i'] 'h' (by decide) (by decide)

/-! ## Normalizer lemmas: `trim` as a fixed point -/

theorem head?_dropWhile_not (p : Char → Bool) :
    ∀ (l : List Char) (c : Char), (l.dropWhile p).head? = some c → p c = false := by
  intro l
  induction l with
  | nil => intro c h; simp at h
  | cons a t ih =>
    intro c h
    rw [List.dropWhile_cons] at h
    by_cases hp : p a = true
    · exact ih c (by simpa [hp] using h)
    · simp only [hp, if_false] at h
      obtain rfl : a = c := by simpa using h
      simpa using hp

theorem trim_getLast_not (l : List Char) (c : Char)
    (h : (trim l).getLast? = some c) : isJsWs c = false := by
  rw [trim, List.getLast?_reverse] at h
  exact head?_dropWhile_not _ _ _ h

theorem trim_head_not (l : List Char) (c : Char)
    (h : (trim l).head? = some c) : isJsWs c = false := by
  rw [trim, List.head?_reverse] at h
  have hne : ((l.dropWhile isJsWs).reverse.dropWhile isJsWs) ≠ [] := by
    intro he
    rw [he] at h
    simp at h
  have h2 : ((l.dropWhile isJsWs).reverse).getLast? = some c := by
    rw [← List.takeWhile_append_dropWhile isJsWs (l.dropWhile isJsWs).reverse,
      List.getLast?_append_of_ne_nil _ hne]
    exact h
  rw [List.getLast?_reverse] at h2
  exact head?_dropWhile_not _ _ _ h2

theorem trim_eq_self (l : List Char)
    (hh : ∀ c, l.head? = some c → isJsWs c = false)
    (hl : ∀ c, l.getLast? = some c → isJsWs c = false) :
    trim l = l := by
  have h1 : l.dropWhile isJsWs = l := by
    cases l with
    | nil => rfl
    | cons a t =>
      rw [List.dropWhile_cons, if_neg]
      simp [hh a rfl]
  rw [trim, h1]
  have h2 : l.reverse.dropWhile isJsWs = l.reverse := by
    cases hr : l.reverse with
    | nil => rfl
    | cons a t =>
      rw [List.dropWhile_cons, if_neg]
      have ha : l.getLast? = some a := by
        rw [← List.head?_reverse, hr]
        rfl
      simp [hl a ha]
  rw [h2, List.reverse_reverse]

theorem trim_idem (l : List Char) : trim (trim l) = trim l :=
  trim_eq_self _ (trim_head_not l) (trim_getLast_not l)

theorem mem_of_mem_dropWhile (p : Char → Bool) (l : List Char) (c : Char)
    (h : c ∈ l.dropWhile p) : c ∈ l := by
  rw [← List.takeWhile_append_dropWhile p l]
  exact List.mem_append_right _ h

theorem mem_of_mem_trim (l : List Char) (c : Char) (h : c ∈ trim l) : c ∈ l := by
  rw [trim, List.mem_reverse] at h
  have h1 := mem_of_mem_dropWhile _ _ _ h
  rw [List.mem_reverse] at h1
  exact mem_of_mem_dropWhile _ _ _ h1

/-! ## Normalizer lemmas: adjacent-pair invariants -/

theorem NTS_symm (a b : Char) (h : NTS a b) : NTS b a :=
  fun hc => h ⟨hc.2, hc.1⟩

theorem TP_symm (a b : Char) (h : TP a b) : TP b a :=
  ⟨fun hc => h.2 ⟨hc.2.2, hc.1, hc.2.1⟩,
   fun hc => h.1 ⟨hc.2.1, hc.2.2, hc.1⟩⟩

theorem chain'_dropWhile (R : Char → Char → Prop) (p : Char → Bool)
    (l : List Char) (h : List.Chain' R l) : List.Chain' R (l.dropWhile p) := by
  rw [← List.takeWhile_append_dropWhile p l] at h
  exact (List.chain'_append.mp h).2.1

theorem chain'_reverse_of_symm (R : Char → Char → Prop)
    (hs : ∀ a b, R a b → R b a) (l : List Char) (h : List.Chain' R l) :
    List.Chain' R l.reverse := by
  rw [List.chain'_reverse]
  exact h.imp (fun a b hab => hs a b hab)

theorem chain'_trim (R : Char → Char → Prop) (hs : ∀ a b, R a b → R b a)
    (l : List Char) (h : List.Chain' R l) : List.Chain' R (trim l) := by
  rw [trim]
  exact chain'_reverse_of_symm R hs _
    (chain'_dropWhile R _ _ (chain'_reverse_of_symm R hs _ (chain'_dropWhile R _ _ h)))

/-! ## Normalizer lemmas: membership through the passes -/

theorem mem_collapseWsAux :
    ∀ (l : List Char) (b : Bool) (c : Char), c ∈ collapseWsAux b l →
      c = ' ' ∨ (c ∈ l ∧ isHorizWs c = false) := by
  intro l
  induction l with
  | nil => intro b c h; cases b <;> simp [collapseWsAux] at h
  | cons a t ih =>
    intro b c h
    by_cases ha : isHorizWs a = true
    · have hrec : c = ' ' ∨ (c ∈ t ∧ isHorizWs c = false) →
        c = ' ' ∨ (c ∈ a :: t ∧ isHorizWs c = false) := by
        rintro (h1 | ⟨h1, h2⟩)
        · exact Or.inl h1
        · exact Or.inr ⟨List.mem_cons_of_mem _ h1, h2⟩
      cases b with
      | true =>
        simp only [collapseWsAux, ha, if_true] at h
        exact hrec (ih true c h)
      | false =>
        simp only [collapseWsAux, ha, if_true] at h
        rcases List.mem_cons.mp h with rfl | h
        · exact Or.inl rfl
        · exact hrec (ih true c h)
    · simp only [collapseWsAux, ha, if_false] at h
      rcases List.mem_cons.mp h with rfl | h
      · exact Or.inr ⟨List.mem_cons_self _ _, by simpa using ha⟩
      · rcases ih false c h with h1 | ⟨h1, h2⟩
        · exact Or.inl h1
        · exact Or.inr ⟨List.mem_cons_of_mem _ h1, h2⟩

theorem mem_collapseNlAux :
    ∀ (l : List Char) (k : Nat) (c : Char), c ∈ collapseNlAux k l →
      c = '\n' ∨ c ∈ l := by
  intro l
  induction l with
  | nil => intro k c h; simp [collapseNlAux] at h
  | cons a t ih =>
    intro k c h
    by_cases ha : a = '\n'
    · subst ha
      by_cases hk : k < 2
      · simp only [collapseNlAux, if_pos rfl, if_pos hk] at h
        rcases List.mem_cons.mp h with rfl | h
        · exact Or.inl rfl
        · rcases ih (k + 1) c h with h1 | h1
          · exact Or.inl h1
          · exact Or.inr (List.mem_cons_of_mem _ h1)
      · simp only [collapseNlAux, if_pos rfl, if_neg hk] at h
        rcases ih k c h with h1 | h1
        · exact Or.inl h1
        · exact Or.inr (List.mem_cons_of_mem _ h1)
    · simp only [collapseNlAux, if_neg ha] at h
      rcases List.mem_cons.mp h with rfl | h
      · exact Or.inr (List.mem_cons_self _ _)
      · rcases ih 0 c h with h1 | h1
        · exact Or.inl h1
        · exact Or.inr (List.mem_cons_of_mem _ h1)

theorem joinNl_cons_cons (p q : List Char) (qs : List (List Char)) :
    joinNl (p :: q :: qs) = p ++ '\n' :: joinNl (q :: qs) := rfl

theorem mem_joinNl :
    ∀ (ls : List (List Char)) (c : Char), c ∈ joinNl ls →
      c = '\n' ∨ ∃ p ∈ ls, c ∈ p := by
  intro ls
  induction ls with
  | nil => intro c h; simp [joinNl] at h
  | cons p ps ih =>
    intro c h
    cases ps with
    | nil =>
      exact Or.inr ⟨p, List.mem_cons_self _ _, by simpa [joinNl] using h⟩
    | cons q qs =>
      rw [joinNl_cons_cons] at h
      rcases List.mem_append.mp h with h | h
      · exact Or.inr ⟨p, List.mem_cons_self _ _, h⟩
      · rcases List.mem_cons.mp h with rfl | h
        · exact Or.inl rfl
        · rcases ih c h with h1 | ⟨r, hr, hcr⟩
          · exact Or.inl h1
          · exact Or.inr ⟨r, List.mem_cons_of_mem _ hr, hcr⟩

/-! ## Normalizer lemmas: `splitNl` and `joinNl` -/

theorem splitNl_ne_nil : ∀ l : List Char, splitNl l ≠ [] := by
  intro l
  cases l with
  | nil => simp [splitNl]
  | cons c rest =>
    cases h : splitNl rest with
    | nil => simp [splitNl, h]
    | cons p ps => by_cases hc : c = '\n' <;> simp [splitNl, h, hc]

theorem splitNl_cons_nl (rest : List Char) :
    splitNl ('\n' :: rest) = [] :: splitNl rest := by
  cases h : splitNl rest with
  | nil => exact absurd h (splitNl_ne_nil rest)
  | cons p ps => simp [splitNl, h]

theorem splitNl_cons_of_ne (a : Char) (rest : List Char) (ha : ¬ a = '\n')
    (p : List Char) (ps : List (List Char)) (h : splitNl rest = p :: ps) :
    splitNl (a :: rest) = (a :: p) :: ps := by
  simp [splitNl, h, ha]

theorem joinNl_splitNl : ∀ l : List Char, joinNl (splitNl l) = l := by
  intro l
  induction l with
  | nil => rfl
  | cons c rest ih =>
    cases h : splitNl rest with
    | nil => exact absurd h (splitNl_ne_nil rest)
    | cons p ps =>
      rw [h] at ih
      by_cases hc : c = '\n'
      · subst hc
        rw [splitNl_cons_nl rest, h, joinNl_cons_cons, List.nil_append, ih]
      · rw [splitNl_cons_of_ne c rest hc p ps h]
        cases ps with
        | nil =>
          simp only [joinNl] at ih ⊢
          rw [ih]
        | cons q qs =>
          rw [joinNl_cons_cons] at ih ⊢
          rw [List.cons_append, ih]

theorem splitNl_head :
    ∀ (l : List Char) (p : List Char) (ps : List (List Char)),
      splitNl l = p :: ps → ∀ c, p.head? = some c → l.head? = some c := by
  intro l p ps hsp c hc
  cases l with
  | nil =>
    simp only [splitNl] at hsp
    injection hsp with h1 _
    subst h1
    simp at hc
  | cons a rest =>
    cases h : splitNl rest with
    | nil => exact absurd h (splitNl_ne_nil rest)
    | cons q qs =>
      by_cases ha : a = '\n'
      · subst ha
        rw [splitNl_cons_nl rest, h] at hsp
        injection hsp with h1 _
        subst h1
        simp at hc
      · rw [splitNl_cons_of_ne a rest ha q qs h] at hsp
        injection hsp with h1 _
        rw [← h1] at hc
        have hac : a = c := by simpa using hc
        subst hac
        rfl

theorem not_nl_mem_splitNl :
    ∀ (l : List Char) (p : List Char), p ∈ splitNl l → '\n' ∉ p := by
  intro l
  induction l with
  | nil =>
    intro p hp
    simp only [splitNl, List.mem_singleton] at hp
    simp [hp]
  | cons a rest ih =>
    intro p hp
    cases h : splitNl rest with
    | nil => exact absurd h (splitNl_ne_nil rest)
    | cons q qs =>
      by_cases ha : a = '\n'
      · subst ha
        rw [splitNl_cons_nl rest, h] at hp
        rcases List.mem_cons.mp hp with rfl | hp
        · simp
        · exact ih p (h ▸ hp)
      · rw [splitNl_cons_of_ne a rest ha q qs h] at hp
        rcases List.mem_cons.mp hp with rfl | hp
        · intro hmem
          rcases List.mem_cons.mp hmem with he | hmem
          · exact ha he.symm
          · exact ih q (h ▸ List.mem_cons_self _ _) hmem
        · exact ih p (h ▸ List.mem_cons_of_mem _ hp)

theorem mem_joinNl_of_mem :
    ∀ (ls : List (List Char)) (p : List Char) (c : Char),
      p ∈ ls → c ∈ p → c ∈ joinNl ls := by
  intro ls
  induction ls with
  | nil => intro p c hp _; simp at hp
  | cons q qs ih =>
    intro p c hp hc
    cases qs with
    | nil =>
      rcases List.mem_cons.mp hp with rfl | hp
      · simpa [joinNl] using hc
      · simp at hp
    | cons r rs =>
      rw [joinNl_cons_cons]
      rcases List.mem_cons.mp hp with rfl | hp
      · exact List.mem_append_left _ hc
      · exact List.mem_append_right _ (List.mem_cons_of_mem _ (ih p c hp hc))

theorem mem_of_mem_splitNl (l : List Char) (p : List Char) (c : Char)
    (hp : p ∈ splitNl l) (hc : c ∈ p) : c ∈ l := by
  have h1 := mem_joinNl_of_mem (splitNl l) p c hp hc
  rwa [joinNl_splitNl] at h1

/-! ## Normalizer lemmas: the collapse passes -/

theorem collapseNlAux_ge_two :
    ∀ (l : List Char) (k : Nat), 2 ≤ k →
      collapseNlAux k l = collapseNlAux k (l.dropWhile (fun c => decide (c = '\n'))) := by
  intro l
  induction l with
  | nil => intro k _; rfl
  | cons a t ih =>
    intro k hk
    by_cases ha : a = '\n'
    · subst ha
      rw [List.dropWhile_cons]
      simp only [decide_eq_true_eq, if_pos rfl]
      rw [collapseNlAux, if_pos rfl, if_neg (by omega)]
      exact ih k hk
    · rw [List.dropWhile_cons, if_neg (by simpa using ha)]

theorem head?_collapseNlAux_lt :
    ∀ (l : List Char) (k : Nat) (c : Char), k < 2 →
      (collapseNlAux k l).head? = some c → l.head? = some c := by
  intro l k c hk h
  cases l with
  | nil => simp [collapseNlAux] at h
  | cons a t =>
    by_cases ha : a = '\n'
    · subst ha
      rw [collapseNlAux, if_pos rfl, if_pos hk] at h
      exact h
    · rw [collapseNlAux, if_neg ha] at h
      exact h

theorem head?_collapseNlAux_of_ne_nl :
    ∀ (l : List Char) (k : Nat), (∀ d, l.head? = some d → d ≠ '\n') →
      (collapseNlAux k l).head? = l.head? := by
  intro l k h
  cases l with
  | nil => rfl
  | cons a t =>
    have ha : a ≠ '\n' := h a rfl
    rw [collapseNlAux, if_neg ha]
    rfl

theorem chain'_head_dropWhile_nl (R : Char → Char → Prop) :
    ∀ (m : List Char), List.Chain' R ('\n' :: m) → ∀ d,
      (m.dropWhile (fun c => decide (c = '\n'))).head? = some d → R '\n' d := by
  intro m
  induction m with
  | nil => intro _ d hd; simp at hd
  | cons e m' ih =>
    intro h d hd
    by_cases he : e = '\n'
    · subst he
      rw [List.dropWhile_cons, if_pos (by simp)] at hd
      exact ih h.tail d hd
    · rw [List.dropWhile_cons, if_neg (by simpa using he)] at hd
      obtain rfl : e = d := by simpa using hd
      exact (List.chain'_cons'.mp h).1 e rfl

theorem chain'_collapseNlAux (R : Char → Char → Prop) :
    ∀ (l : List Char) (k : Nat), List.Chain' R l →
      List.Chain' R (collapseNlAux k l) := by
  intro l
  induction l with
  | nil => intro k _; exact List.chain'_nil
  | cons a t ih =>
    intro k hc
    have ht := hc.tail
    by_cases ha : a = '\n'
    · subst ha
      by_cases hk : k < 2
      · rw [collapseNlAux, if_pos rfl, if_pos hk]
        refine List.chain'_cons'.mpr ⟨?_, ih (k + 1) ht⟩
        intro d hd
        by_cases hk1 : k + 1 < 2
        · exact (List.chain'_cons'.mp hc).1 d (head?_collapseNlAux_lt t (k + 1) d hk1 hd)
        · rw [collapseNlAux_ge_two t (k + 1) (by omega)] at hd
          rw [head?_collapseNlAux_of_ne_nl _ (k + 1) (fun e he => by
            have := head?_dropWhile_not _ _ _ he
            simpa using this)] at hd
          exact chain'_head_dropWhile_nl R t hc d hd
      · rw [collapseNlAux, if_pos rfl, if_neg hk]
        exact ih k ht
    · rw [collapseNlAux, if_neg ha]
      refine List.chain'_cons'.mpr ⟨?_, ih 0 ht⟩
      intro d hd
      exact (List.chain'_cons'.mp hc).1 d (head?_collapseNlAux_lt t 0 d (by omega) hd)

theorem getLast?_collapseNlAux :
    ∀ (l : List Char) (k : Nat) (c : Char), l.getLast? = some c → c ≠ '\n' →
      (collapseNlAux k l).getLast? = some c := by
  intro l
  induction l with
  | nil => intro k c h _; simp at h
  | cons a t ih =>
    intro k c h hcn
    cases t with
    | nil =>
      obtain rfl : a = c := by simpa using h
      rw [collapseNlAux, if_neg hcn]
      rfl
    | cons b t' =>
      rw [List.getLast?_cons_cons] at h
      have step : ∀ k', (collapseNlAux k' (b :: t')).getLast? = some c := by
        intro k'
        exact ih k' c h hcn
      by_cases ha : a = '\n'
      · subst ha
        by_cases hk : k < 2
        · rw [collapseNlAux, if_pos rfl, if_pos hk]
          have hih := step (k + 1)
          cases haux : collapseNlAux (k + 1) (b :: t') with
          | nil => rw [haux] at hih; simp at hih
          | cons d u =>
            rw [haux] at hih
            rw [List.getLast?_cons_cons]
            exact hih
        · rw [collapseNlAux, if_pos rfl, if_neg hk]
          exact step k
      · rw [collapseNlAux, if_neg ha]
        have hih := step 0
        cases haux : collapseNlAux 0 (b :: t') with
        | nil => rw [haux] at hih; simp at hih
        | cons d u =>
          rw [haux] at hih
          rw [List.getLast?_cons_cons]
          exact hih

theorem collapseNlAux_idem :
    ∀ (l : List Char) (k : Nat),
      collapseNlAux k (collapseNlAux k l) = collapseNlAux k l := by
  intro l
  induction l with
  | nil => intro k; rfl
  | cons a t ih =>
    intro k
    by_cases ha : a = '\n'
    · subst ha
      by_cases hk : k < 2
      · rw [collapseNlAux, if_pos rfl, if_pos hk, collapseNlAux, if_pos rfl,
          if_pos hk, ih (k + 1)]
      · rw [collapseNlAux, if_pos rfl, if_neg hk, ih k]
    · rw [collapseNlAux, if_neg ha, collapseNlAux, if_neg ha, ih 0]

theorem head?_collapseWsAux_true :
    ∀ (l : List Char) (c : Char), (collapseWsAux true l).head? = some c →
      isHorizWs c = false := by
  intro l
  induction l with
  | nil => intro c h; simp [collapseWsAux] at h
  | cons a t ih =>
    intro c h
    by_cases ha : isHorizWs a = true
    · rw [collapseWsAux, if_pos ha, if_pos rfl] at h
      exact ih c h
    · rw [collapseWsAux, if_neg ha] at h
      obtain rfl : a = c := by simpa using h
      simpa using ha

theorem chain'_collapseWsAux :
    ∀ (l : List Char) (b : Bool), List.Chain' NTS (collapseWsAux b l) := by
  intro l
  induction l with
  | nil => intro b; exact List.chain'_nil
  | cons a t ih =>
    intro b
    by_cases ha : isHorizWs a = true
    · cases b with
      | true =>
        rw [collapseWsAux, if_pos ha, if_pos rfl]
        exact ih true
      | false =>
        rw [collapseWsAux, if_pos ha, if_neg (by simp)]
        refine List.chain'_cons'.mpr ⟨?_, ih true⟩
        intro d hd
        have := head?_collapseWsAux_true t d hd
        intro hcon
        rw [hcon.2] at this
        simp [isHorizWs] at this
    · rw [collapseWsAux, if_neg ha]
      refine List.chain'_cons'.mpr ⟨?_, ih false⟩
      intro d _
      intro hcon
      rw [hcon.1] at ha
      simp [isHorizWs] at ha

theorem mem_of_head? (l : List Char) (d : Char) (h : l.head? = some d) :
    d ∈ l := by
  cases l with
  | nil => simp at h
  | cons a t =>
    obtain rfl : a = d := by simpa using h
    exact List.mem_cons_self _ _

theorem collapseWsAux_true_of_head_not (l : List Char)
    (h : ∀ d, l.head? = some d → isHorizWs d = false) :
    collapseWsAux true l = collapseWsAux false l := by
  cases l with
  | nil => rfl
  | cons a t =>
    have ha := h a rfl
    rw [collapseWsAux, if_neg (by simp [ha]), collapseWsAux,
      if_neg (by simp [ha])]

theorem collapseWs_eq_self :
    ∀ l : List Char, (∀ c ∈ l, c ≠ '\t') → List.Chain' NTS l →
      collapseWsAux false l = l := by
  intro l
  induction l with
  | nil => intro _ _; rfl
  | cons a t ih =>
    intro hnt hc
    by_cases ha : isHorizWs a = true
    · have ha' : a = ' ' := by
        have h1 := hnt a (List.mem_cons_self _ _)
        simp only [isHorizWs, decide_eq_true_eq] at ha
        rcases ha with h | h
        · exact h
        · exact absurd h h1
      subst ha'
      rw [collapseWsAux, if_pos ha, if_neg (by simp)]
      congr 1
      have hhead : ∀ d, t.head? = some d → isHorizWs d = false := by
        intro d hd
        have hnts := (List.chain'_cons'.mp hc).1 d (by simpa using hd)
        have hds : d ≠ ' ' := fun he => hnts ⟨rfl, he⟩
        have hdt : d ≠ '\t' :=
          hnt d (List.mem_cons_of_mem _ (mem_of_head? t d hd))
        simp [isHorizWs, hds, hdt]
      rw [collapseWsAux_true_of_head_not t hhead]
      exact ih (fun c hc' => hnt c (List.mem_cons_of_mem _ hc')) hc.tail
    · rw [collapseWsAux, if_neg ha]
      congr 1
      exact ih (fun c hc' => hnt c (List.mem_cons_of_mem _ hc')) hc.tail

theorem head?_joinNl_cases :
    ∀ (ps : List (List Char)) (d : Char), (joinNl ps).head? = some d →
      d = '\n' ∨ ∃ p ∈ ps, p.head? = some d := by
  intro ps d h
  cases ps with
  | nil => simp [joinNl] at h
  | cons p qs =>
    cases qs with
    | nil =>
      exact Or.inr ⟨p, List.mem_cons_self _ _, by simpa [joinNl] using h⟩
    | cons q qs' =>
      rw [joinNl_cons_cons] at h
      cases p with
      | nil =>
        obtain rfl : '\n' = d := by simpa using h
        exact Or.inl rfl
      | cons a t =>
        rw [List.cons_append] at h
        exact Or.inr ⟨a :: t, List.mem_cons_self _ _, by simpa using h⟩

theorem chain'_joinNl_NTS :
    ∀ (qs : List (List Char)), (∀ q ∈ qs, List.Chain' NTS q) →
      List.Chain' NTS (joinNl qs) := by
  intro qs
  induction qs with
  | nil => intro _; exact List.chain'_nil
  | cons p qs ih =>
    intro h
    cases qs with
    | nil => simpa [joinNl] using h p (List.mem_cons_self _ _)
    | cons q qs' =>
      rw [joinNl_cons_cons]
      refine List.chain'_append.mpr ⟨h p (List.mem_cons_self _ _), ?_, ?_⟩
      · refine List.chain'_cons'.mpr
          ⟨?_, ih (fun r hr => h r (List.mem_cons_of_mem _ hr))⟩
        intro y _
        exact fun hcon => absurd hcon.1 (by decide)
      · intro x _ y hy
        obtain rfl : '\n' = y := by simpa using hy
        exact fun hcon => absurd hcon.2 (by decide)

theorem chain'_TP_of_no_nl :
    ∀ (q : List Char), '\n' ∉ q → List.Chain' TP q := by
  intro q
  induction q with
  | nil => intro _; exact List.chain'_nil
  | cons a t ih =>
    intro h
    refine List.chain'_cons'.mpr
      ⟨?_, ih (fun hm => h (List.mem_cons_of_mem _ hm))⟩
    intro y hy
    have hy' : y ∈ t := mem_of_head? t y (by simpa using hy)
    have hhy : y ≠ '\n' := fun he => h (List.mem_cons_of_mem _ (he ▸ hy'))
    have hha : a ≠ '\n' := fun he => h (he ▸ List.mem_cons_self _ _)
    exact ⟨fun hcon => hhy hcon.2.2, fun hcon => hha hcon.1⟩

theorem chain'_joinNl_TP :
    ∀ (qs : List (List Char)), (∀ q ∈ qs, '\n' ∉ q ∧ trim q = q) →
      List.Chain' TP (joinNl qs) := by
  intro qs
  induction qs with
  | nil => intro _; exact List.chain'_nil
  | cons p qs ih =>
    intro h
    cases qs with
    | nil =>
      simpa [joinNl] using chain'_TP_of_no_nl p (h p (List.mem_cons_self _ _)).1
    | cons q qs' =>
      rw [joinNl_cons_cons]
      have hp := h p (List.mem_cons_self _ _)
      refine List.chain'_append.mpr ⟨chain'_TP_of_no_nl p hp.1, ?_, ?_⟩
      · refine List.chain'_cons'.mpr
          ⟨?_, ih (fun r hr => h r (List.mem_cons_of_mem _ hr))⟩
        intro d hd
        have hd' : (joinNl (q :: qs')).head? = some d := by simpa using hd
        rcases head?_joinNl_cases _ d hd' with rfl | ⟨r, hr, hrd⟩
        · exact ⟨fun hcon => hcon.2.1 rfl, fun hcon => hcon.2.2 rfl⟩
        · have hrq := h r (List.mem_cons_of_mem _ hr)
          have hd_not : isJsWs d = false :=
            trim_head_not r d (by rw [hrq.2]; exact hrd)
          refine ⟨fun hcon => hcon.2.1 rfl, fun hcon => ?_⟩
          rw [hd_not] at hcon
          exact Bool.false_ne_true hcon.2.1
      · intro x hx y hy
        obtain rfl : '\n' = y := by simpa using hy
        have hx' : p.getLast? = some x := by simpa using hx
        have hx_not : isJsWs x = false :=
          trim_getLast_not p x (by rw [hp.2]; exact hx')
        refine ⟨fun hcon => ?_, fun hcon => ?_⟩
        · rw [hx_not] at hcon
          exact Bool.false_ne_true hcon.1
        · rw [hcon.1] at hx_not
          simp [isJsWs] at hx_not

theorem chain'_splitNl (R : Char → Char → Prop) :
    ∀ (l : List Char), List.Chain' R l → ∀ p ∈ splitNl l, List.Chain' R p := by
  intro l
  induction l with
  | nil =>
    intro _ p hp
    simp only [splitNl, List.mem_singleton] at hp
    subst hp
    exact List.chain'_nil
  | cons a rest ih =>
    intro hc p hp
    cases h : splitNl rest with
    | nil => exact absurd h (splitNl_ne_nil rest)
    | cons q qs =>
      by_cases ha : a = '\n'
      · subst ha
        rw [splitNl_cons_nl rest, h] at hp
        rcases List.mem_cons.mp hp with rfl | hp
        · exact List.chain'_nil
        · exact ih hc.tail p (h ▸ hp)
      · rw [splitNl_cons_of_ne a rest ha q qs h] at hp
        rcases List.mem_cons.mp hp with rfl | hp
        · refine List.chain'_cons'.mpr
            ⟨?_, ih hc.tail q (h ▸ List.mem_cons_self _ _)⟩
          intro y hy
          exact (List.chain'_cons'.mp hc).1 y
            (by simpa using splitNl_head rest q qs h y (by simpa using hy))
        · exact ih hc.tail p (h ▸ List.mem_cons_of_mem _ hp)

/-! ## Normalizer lemmas: every line of a clean text is trimmed -/

theorem joinNl_cons_of_ne_nil (p : List Char) (ps : List (List Char))
    (h : ps ≠ []) : joinNl (p :: ps) = p ++ '\n' :: joinNl ps := by
  cases ps with
  | nil => exact absurd rfl h
  | cons q qs => exact joinNl_cons_cons p q qs

theorem mem_of_getLast? (l : List Char) (c : Char) (h : l.getLast? = some c) :
    c ∈ l := by
  obtain ⟨hne, heq⟩ := List.mem_getLast?_eq_getLast (x := c) (by simpa using h)
  rw [heq]
  exact List.getLast_mem hne

theorem splitNl_pieces_trimmed :
    ∀ (z : List Char), List.Chain' TP z →
      (∀ c, z.getLast? = some c → isJsWs c = true → c = '\n') →
      ((∀ c, z.head? = some c → isJsWs c = true → c = '\n') →
        ∀ p ∈ splitNl z, trim p = p) ∧
      (∀ p ∈ (splitNl z).tail, trim p = p) := by
  intro z
  induction z with
  | nil =>
    intro _ _
    constructor
    · intro _ p hp
      simp only [splitNl, List.mem_singleton] at hp
      subst hp
      rfl
    · intro p hp
      simp [splitNl] at hp
  | cons a rest ih =>
    intro hc hlast
    cases hsp : splitNl rest with
    | nil => exact absurd hsp (splitNl_ne_nil rest)
    | cons q qs =>
      have hlast_rest : ∀ c, rest.getLast? = some c → isJsWs c = true → c = '\n' := by
        intro c hcl
        cases rest with
        | nil => simp at hcl
        | cons b t => exact hlast c (by rw [List.getLast?_cons_cons]; exact hcl)
      have ihr := ih hc.tail hlast_rest
      by_cases ha : a = '\n'
      · subst ha
        rw [splitNl_cons_nl rest, hsp]
        have hheadrest : ∀ c, rest.head? = some c → isJsWs c = true → c = '\n' := by
          intro c hch hws
          have htp := (List.chain'_cons'.mp hc).1 c (by simpa using hch)
          by_contra hne
          exact htp.2 ⟨rfl, hws, hne⟩
        have hall : ∀ p ∈ splitNl rest, trim p = p := ihr.1 hheadrest
        constructor
        · intro _ p hp
          rcases List.mem_cons.mp hp with rfl | hp
          · rfl
          · exact hall p (hsp ▸ hp)
        · intro p hp
          simp only [List.tail_cons] at hp
          exact hall p (hsp ▸ hp)
      · rw [splitNl_cons_of_ne a rest ha q qs hsp]
        have htail : ∀ p ∈ qs, trim p = p := by
          intro p hp
          apply ihr.2
          rw [hsp]
          simpa using hp
        constructor
        · intro hhead p hp
          rcases List.mem_cons.mp hp with rfl | hp
          · have hanot : isJsWs a = false := by
              by_cases hw : isJsWs a = true
              · exact absurd (hhead a rfl hw) ha
              · simpa using hw
            apply trim_eq_self
            · intro c hcheq
              obtain rfl : a = c := by simpa using hcheq
              exact hanot
            · intro c hclast
              cases q with
              | nil =>
                obtain rfl : a = c := by simpa using hclast
                exact hanot
              | cons b t =>
                rw [List.getLast?_cons_cons] at hclast
                have hcq : c ∈ b :: t := mem_of_getLast? _ _ hclast
                have hcnl : c ≠ '\n' :=
                  fun he => not_nl_mem_splitNl rest (b :: t)
                    (hsp ▸ List.mem_cons_self _ _) (he ▸ hcq)
                by_contra hw
                have hw' : isJsWs c = true := by simpa using hw
                cases qs with
                | nil =>
                  have hrest : rest = b :: t := by
                    have := joinNl_splitNl rest
                    rw [hsp] at this
                    simpa [joinNl] using this.symm
                  exact hcnl (hlast_rest c (by rw [hrest]; exact hclast) hw')
                | cons r rs =>
                  have hrest : rest = (b :: t) ++ '\n' :: joinNl (r :: rs) := by
                    have := joinNl_splitNl rest
                    rw [hsp, joinNl_cons_of_ne_nil _ _ (by simp)] at this
                    exact this.symm
                  have hcr : List.Chain' TP rest := hc.tail
                  rw [hrest] at hcr
                  have hbound := (List.chain'_append.mp hcr).2.2 c
                    (by simpa using hclast) '\n' (by simp)
                  exact hbound.1 ⟨hw', hcnl, rfl⟩
          · exact htail p hp
        · intro p hp
          simp only [List.tail_cons] at hp
          exact htail p hp

theorem map_trim_id (ls : List (List Char)) (h : ∀ p ∈ ls, trim p = p) :
    ls.map trim = ls := by
  induction ls with
  | nil => rfl
  | cons p ps ih =>
    rw [List.map_cons, h p (List.mem_cons_self _ _),
      ih (fun r hr => h r (List.mem_cons_of_mem _ hr))]

theorem lineTrim_eq_self (z : List Char) (hc : List.Chain' TP z)
    (hh : ∀ c, z.head? = some c → isJsWs c = false)
    (hl : ∀ c, z.getLast? = some c → isJsWs c = false) :
    trim (joinNl ((splitNl z).map trim)) = z := by
  have hpieces : ∀ p ∈ splitNl z, trim p = p := by
    have hmain := splitNl_pieces_trimmed z hc
      (fun c h1 h2 => absurd h2 (by simp [hl c h1]))
    exact hmain.1 (fun c h1 h2 => absurd h2 (by simp [hh c h1]))
  rw [map_trim_id _ hpieces, joinNl_splitNl]
  exact trim_eq_self z hh hl

/-! ## Normalizer lemmas: invariants of `cleanText` output -/

theorem cleanText_no_ctrl (x : List Char) :
    ∀ c ∈ cleanText x, isCtrlRemoved c = false := by
  intro c hc
  by_cases hx : x = []
  · rw [hx] at hc
    simp [cleanText] at hc
  · rw [cleanText, if_neg hx] at hc
    have h1 := mem_of_mem_trim _ _ hc
    rcases mem_joinNl _ _ h1 with rfl | ⟨q, hq, hcq⟩
    · decide
    · rcases List.mem_map.mp hq with ⟨p, hp, rfl⟩
      have h2 := mem_of_mem_trim _ _ hcq
      have h3 := mem_of_mem_splitNl _ _ _ hp h2
      rcases mem_collapseNlAux _ 0 c (by simpa [collapseNl] using h3) with rfl | h4
      · decide
      · rcases mem_collapseWsAux _ false c (by simpa [collapseWs] using h4) with
          rfl | ⟨h5, _⟩
        · decide
        · have h6 : c ∈ x ∧ isCtrlRemoved c = false := by
            simpa [removeCtrl] using h5
          exact h6.2

theorem cleanText_no_tab (x : List Char) : ∀ c ∈ cleanText x, c ≠ '\t' := by
  intro c hc he
  have h1 := cleanText_no_ctrl x c hc
  rw [he] at h1
  exact absurd h1 (by decide)

theorem cleanText_chain_NTS (x : List Char) :
    List.Chain' NTS (cleanText x) := by
  by_cases hx : x = []
  · rw [hx]
    show List.Chain' NTS ([] : List Char)
    exact List.chain'_nil
  · rw [cleanText, if_neg hx]
    apply chain'_trim NTS NTS_symm
    apply chain'_joinNl_NTS
    intro q hq
    rcases List.mem_map.mp hq with ⟨p, hp, rfl⟩
    apply chain'_trim NTS NTS_symm
    have hw : List.Chain' NTS (collapseNl (collapseWs (removeCtrl x))) := by
      simp only [collapseNl, collapseWs]
      exact chain'_collapseNlAux NTS _ 0 (chain'_collapseWsAux _ false)
    exact chain'_splitNl NTS _ hw p hp

theorem cleanText_chain_TP (x : List Char) :
    List.Chain' TP (cleanText x) := by
  by_cases hx : x = []
  · rw [hx]
    show List.Chain' TP ([] : List Char)
    exact List.chain'_nil
  · rw [cleanText, if_neg hx]
    apply chain'_trim TP TP_symm
    apply chain'_joinNl_TP
    intro q hq
    rcases List.mem_map.mp hq with ⟨p, hp, rfl⟩
    refine ⟨fun hmem => ?_, trim_idem p⟩
    exact not_nl_mem_splitNl _ p hp (mem_of_mem_trim _ _ hmem)

theorem trim_cleanText (x : List Char) :
    trim (cleanText x) = cleanText x := by
  by_cases hx : x = []
  · rw [hx]
    rfl
  · rw [cleanText, if_neg hx]
    exact trim_idem _

/-! ## Normalizer: `cleanText` on already-normalized text -/

theorem cleanText_of_normalized (y : List Char)
    (hctrl : ∀ c ∈ y, isCtrlRemoved c = false)
    (hnts : List.Chain' NTS y)
    (htp : List.Chain' TP y)
    (htr : trim y = y) :
    cleanText y = collapseNl y ∧ cleanText (collapseNl y) = collapseNl y := by
  by_cases hy : y = []
  · subst hy
    exact ⟨rfl, rfl⟩
  · have hhead : ∀ c, y.head? = some c → isJsWs c = false := by
      intro c h
      exact trim_head_not y c (by rw [htr]; exact h)
    have hlastp : ∀ c, y.getLast? = some c → isJsWs c = false := by
      intro c h
      exact trim_getLast_not y c (by rw [htr]; exact h)
    have hrc : removeCtrl y = y := by
      rw [removeCtrl]
      apply List.filter_eq_self.mpr
      intro a ha
      simp [hctrl a ha]
    have hnotab : ∀ c ∈ y, c ≠ '\t' := by
      intro c hcy he
      have h1 := hctrl c hcy
      rw [he] at h1
      exact absurd h1 (by decide)
    have hcw : collapseWs y = y := by
      rw [collapseWs]
      exact collapseWs_eq_self y hnotab hnts
    obtain ⟨c₀, t₀, rfl⟩ : ∃ c₀ t₀, y = c₀ :: t₀ := by
      cases y with
      | nil => exact absurd rfl hy
      | cons a t => exact ⟨a, t, rfl⟩
    have hc₀ : isJsWs c₀ = false := hhead c₀ rfl
    have hc₀n : c₀ ≠ '\n' := by
      intro he
      rw [he] at hc₀
      exact absurd hc₀ (by decide)
    have hzhead : (collapseNl (c₀ :: t₀)).head? = some c₀ := by
      rw [collapseNl, head?_collapseNlAux_of_ne_nl]
      · rfl
      · intro d hd
        obtain rfl : c₀ = d := by simpa using hd
        exact hc₀n
    obtain ⟨cl, hcl⟩ : ∃ cl, (c₀ :: t₀).getLast? = some cl :=
      ⟨(c₀ :: t₀).getLast (by simp),
        List.getLast?_eq_getLast_of_ne_nil (by simp)⟩
    have hclws : isJsWs cl = false := hlastp cl hcl
    have hcln : cl ≠ '\n' := by
      intro he
      rw [he] at hclws
      exact absurd hclws (by decide)
    have hzlast : (collapseNl (c₀ :: t₀)).getLast? = some cl := by
      rw [collapseNl]
      exact getLast?_collapseNlAux _ 0 cl hcl hcln
    have hzne : collapseNl (c₀ :: t₀) ≠ [] := by
      intro he
      rw [he] at hzhead
      simp at hzhead
    have hznts : List.Chain' NTS (collapseNl (c₀ :: t₀)) := by
      rw [collapseNl]
      exact chain'_collapseNlAux NTS _ 0 hnts
    have hztp : List.Chain' TP (collapseNl (c₀ :: t₀)) := by
      rw [collapseNl]
      exact chain'_collapseNlAux TP _ 0 htp
    have hzheadws : ∀ c, (collapseNl (c₀ :: t₀)).head? = some c →
        isJsWs c = false := by
      intro c h
      rw [hzhead] at h
      obtain rfl : c₀ = c := by simpa using h
      exact hc₀
    have hzlastws : ∀ c, (collapseNl (c₀ :: t₀)).getLast? = some c →
        isJsWs c = false := by
      intro c h
      rw [hzlast] at h
      obtain rfl : cl = c := by simpa using h
      exact hclws
    have hclean1 : cleanText (c₀ :: t₀) = collapseNl (c₀ :: t₀) := by
      rw [cleanText, if_neg hy, hrc, hcw]
      exact lineTrim_eq_self _ hztp hzheadws hzlastws
    have hzctrl : ∀ c ∈ collapseNl (c₀ :: t₀), isCtrlRemoved c = false := by
      intro c hcz
      rcases mem_collapseNlAux _ 0 c (by simpa [collapseNl] using hcz) with rfl | h
      · decide
      · exact hctrl c h
    have hznotab : ∀ c ∈ collapseNl (c₀ :: t₀), c ≠ '\t' := by
      intro c hcz he
      have h1 := hzctrl c hcz
      rw [he] at h1
      exact absurd h1 (by decide)
    have hzrc : removeCtrl (collapseNl (c₀ :: t₀)) = collapseNl (c₀ :: t₀) := by
      rw [removeCtrl]
      apply List.filter_eq_self.mpr
      intro a ha
      simp [hzctrl a ha]
    have hzcw : collapseWs (collapseNl (c₀ :: t₀)) = collapseNl (c₀ :: t₀) := by
      rw [collapseWs]
      exact collapseWs_eq_self _ hznotab hznts
    have hznl : collapseNl (collapseNl (c₀ :: t₀)) = collapseNl (c₀ :: t₀) := by
      rw [collapseNl, collapseNl]
      exact collapseNlAux_idem _ 0
    have hclean2 : cleanText (collapseNl (c₀ :: t₀)) = collapseNl (c₀ :: t₀) := by
      rw [cleanText, if_neg hzne, hzrc, hzcw, hznl]
      exact lineTrim_eq_self _ hztp hzheadws hzlastws
    exact ⟨hclean1, hclean2⟩

/-- C3 counterexample.  The normalizer is not idempotent: on
`"a\n \n \nb"` the first pass trims the two space-only lines to empty
lines, producing `"a\n\n\nb"`, whose newline run of three only collapses
to two on the second pass. -/
theorem cleanText_not_idempotent :
    cleanText (cleanText ['a', '\n', ' ', '\n', ' ', '\n', 'b']) ≠
      cleanText ['a', '\n', ' ', '\n', ' ', '\n', 'b'] := by decide

/-- C3, amended.  The normalizer stabilizes after two applications: for
every string `x`, `cleanText (cleanText (cleanText x)) =
cleanText (cleanText x)` — a second pass only collapses the newline runs
that line-trimming of whitespace-only lines may have created, and its
output is a true fixed point of `cleanText`. -/
theorem cleanText_stable (x : List Char) :
    cleanText (cleanText (cleanText x)) = cleanText (cleanText x) := by
  have h := cleanText_of_normalized (cleanText x) (cleanText_no_ctrl x)
    (cleanText_chain_NTS x) (cleanText_chain_TP x) (trim_cleanText x)
  rw [h.1, h.2]

end PdfService





